import Mathlib

/-!
Verification of the narmol scope-matching engine and pipeline orchestrator.

Strings are modelled as `List Char` (ASCII fragment), following the shallow
embedding of the Go source in `internal/scope/scope.go` (scope matcher),
`internal/workflows/active/active.go` (streaming pipeline) and the recon
workflow (dedup / recursive expansion).  Each Go standard-library helper
used by the source (`strings.ToLower`, `strings.TrimSpace`, `strings.Index`,
`strings.LastIndex`, `strings.Contains`, `strings.Trim`, `strings.Count`,
`strings.Split`, `net.ParseIP` for dotted-quad IPv4, `net.ParseCIDR`) is
given an executable Lean model.
-/

namespace Narmol

abbrev Str := List Char

/-- Model of Go `unicode.IsSpace` restricted to the ASCII whitespace
characters (space, tab, newline, vertical tab, form feed, carriage return). -/
def isSpaceChar (c : Char) : Bool :=
  c = ' ' || c = '\t' || c = '\n' || c = '\x0b' || c = '\x0c' || c = '\r'

/-- Model of Go `unicode.ToLower` restricted to ASCII. -/
def toLowerChar (c : Char) : Char :=
  if 'A' ≤ c && c ≤ 'Z' then Char.ofNat (c.toNat + 32) else c

/-- Model of Go `strings.ToLower` (ASCII fragment). -/
def goToLower (s : Str) : Str := s.map toLowerChar

/-- Model of Go `strings.TrimSpace`: drop leading and trailing whitespace. -/
def goTrimSpace (s : Str) : Str :=
  ((s.dropWhile isSpaceChar).reverse.dropWhile isSpaceChar).reverse

/-- Model of Go `strings.Index sub s`: index of the first occurrence of the
substring `sub` in `s`, `none` when absent (`-1` in Go). -/
def goIndex (sub : Str) : Str → Option Nat
  | [] => if sub.isPrefixOf ([] : Str) then some 0 else none
  | c :: t =>
    if sub.isPrefixOf (c :: t) then some 0
    else (goIndex sub t).map (· + 1)

/-- Model of Go `strings.LastIndex s c` for a one-character needle:
index of the last occurrence of the character `c` in `s`. -/
def goLastIndexChar : Str → Char → Option Nat
  | [], _ => none
  | a :: t, c =>
    match goLastIndexChar t c with
    | some j => some (j + 1)
    | none => if a = c then some 0 else none

/-- Model of Go `strings.Contains`. -/
def goContains (s sub : Str) : Bool := (goIndex sub s).isSome

/-- Model of Go `strings.Trim s cutset`: remove leading and trailing
characters belonging to `cutset`. -/
def goTrim (s cutset : Str) : Str :=
  ((s.dropWhile (cutset.contains ·)).reverse.dropWhile (cutset.contains ·)).reverse

/-- Model of Go `strings.Count s c` for a one-character substring. -/
def goCountChar (s : Str) (c : Char) : Nat := s.count c

/-- Model of Go `strings.Split s sep` for a one-character separator. -/
def splitOnChar : Str → Char → List Str
  | [], _ => [[]]
  | a :: t, c =>
    if a = c then [] :: splitOnChar t c
    else
      match splitOnChar t c with
      | h :: r => (a :: h) :: r
      | [] => [[a]]

/-- One decimal field of a dotted-quad IPv4 address, per Go `net.ParseIP`:
non-empty, all digits, value at most 255, no leading zero. -/
def parseOctet (f : Str) : Option Nat :=
  if f = [] then none
  else if 2 ≤ f.length && f.headI = '0' then none
  else if !(f.all Char.isDigit) then none
  else
    let v := f.foldl (fun a c => a * 10 + (c.toNat - 48)) 0
    if v ≤ 255 then some v else none

/-- Model of the IPv4 (dotted-quad) fragment of Go `net.ParseIP`; the
address is represented as a natural number below `2^32`.  IPv6 literals are
out of the model and parse as `none`. -/
def parseIPv4 (s : Str) : Option Nat :=
  match splitOnChar s '.' with
  | [a, b, c, d] =>
    match parseOctet a, parseOctet b, parseOctet c, parseOctet d with
    | some x, some y, some z, some w => some (((x * 256 + y) * 256 + z) * 256 + w)
    | _, _, _, _ => none
  | _ => none

/-- Apply an IPv4 network mask of `bits` leading ones to an address,
as Go `IP.Mask` does byte-wise. -/
def applyMask (ip bits : Nat) : Nat := ip / 2 ^ (32 - bits) * 2 ^ (32 - bits)

/-- Model of Go `net.IPNet`: the (already masked) network address and the
prefix length. -/
structure IPNet where
  network : Nat
  maskBits : Nat
deriving DecidableEq, Repr

/-- The prefix-length part of a CIDR string, per Go `net.ParseCIDR`:
non-empty, all digits, value at most 32 for IPv4. -/
def parseMaskLen (s : Str) : Option Nat :=
  if s = [] then none
  else if !(s.all Char.isDigit) then none
  else
    let v := s.foldl (fun a c => a * 10 + (c.toNat - 48)) 0
    if v ≤ 32 then some v else none

/-- Model of the IPv4 fragment of Go `net.ParseCIDR`: split at the first
slash, parse the address and the prefix length, and return the masked
network (host bits are discarded, as in Go). -/
def parseCIDR (s : Str) : Option IPNet :=
  match goIndex ['/'] s with
  | none => none
  | some i =>
    match parseIPv4 (s.take i), parseMaskLen (s.drop (i + 1)) with
    | some ip, some b => some ⟨applyMask ip b, b⟩
    | _, _ => none

/-- Model of Go `IPNet.Contains`. -/
def ipnetContains (n : IPNet) (ip : Nat) : Bool :=
  applyMask ip n.maskBits = n.network

/-- One scope rule, from `internal/scope/scope.go`: the raw pattern, the
exclusion flag, and the optional parsed single-IP / CIDR classification. -/
structure Rule where
  pattern : Str
  exclude : Bool
  ip : Option Nat
  cidr : Option IPNet
deriving DecidableEq, Repr

/-- Rule classification from `processLine`: try CIDR first, then single IP,
then fall back to a domain pattern. -/
def mkRule (pattern : Str) (exclude : Bool) : Rule :=
  match parseCIDR pattern with
  | some n => ⟨pattern, exclude, none, some n⟩
  | none =>
    match parseIPv4 pattern with
    | some ip => ⟨pattern, exclude, some ip, none⟩
    | none => ⟨pattern, exclude, none, none⟩

/-- The scope: ordered include and exclude rule lists. -/
structure Scope where
  includes : List Rule
  excludes : List Rule
deriving DecidableEq, Repr

/-- Model of `processLine` from `internal/scope/scope.go`: trim, skip blank
lines and comment lines, strip inline comments, strip a leading dash into
the exclusion flag, classify, and append to the proper rule list. -/
def processLine (s : Scope) (line : Str) : Scope :=
  let line := goTrimSpace line
  if line = [] || ['#'].isPrefixOf line then s
  else
    let line :=
      match goIndex [' ', '#'] line with
      | some i => goTrimSpace (line.take i)
      | none => line
    let exclude := ['-'].isPrefixOf line
    let pattern := if exclude then line.drop 1 else line
    let r := mkRule pattern exclude
    if exclude then { s with excludes := s.excludes ++ [r] }
    else { s with includes := s.includes ++ [r] }

/-- Build a scope by processing a list of rule lines (the loop inside
`Load`). -/
def loadLines (lines : List Str) : Scope :=
  lines.foldl processLine ⟨[], []⟩

/-- `matchPattern` from `internal/scope/scope.go`: exact match, or for a
wildcard pattern, its base domain or any true subdomain of it. -/
def matchPattern (pattern target : Str) : Bool :=
  let p := goToLower pattern
  let t := goToLower target
  if p = t then true
  else if ['*', '.'].isPrefixOf p then
    let base := p.drop 2
    if t = base then true
    else if ('.' :: base).isSuffixOf t then true
    else false
  else false

/-- `matchRule` from `internal/scope/scope.go`: CIDR containment, exact IP
equality, or domain pattern matching, in that order. -/
def matchRule (r : Rule) (target : Str) (targetIP : Option Nat) : Bool :=
  match r.cidr with
  | some n =>
    match targetIP with
    | some tip => ipnetContains n tip
    | none => false
  | none =>
    match r.ip with
    | some rip =>
      match targetIP with
      | some tip => rip = tip
      | none => false
    | none => matchPattern r.pattern target

/-- Scheme stripping from `Scope.IsInScope`: cut everything up to and
including the first `://`. -/
def schemeStrip (t : Str) : Str :=
  match goIndex [':', '/', '/'] t with
  | some i => t.drop (i + 3)
  | none => t

/-- Port stripping from `Scope.IsInScope`: cut at the last `:` unless a `]`
occurs at or after it (bracketed IPv6 literal). -/
def portStrip (t : Str) : Str :=
  match goLastIndexChar t ':' with
  | some i => if goContains (t.drop i) [']'] then t else t.take i
  | none => t

/-- Path stripping from `Scope.IsInScope`: cut at the first `/`. -/
def pathStrip (t : Str) : Str :=
  match goIndex ['/'] t with
  | some i => t.take i
  | none => t

/-- The query-time target normalization performed at the top of
`Scope.IsInScope`: trim + lowercase, strip the scheme at the first `://`,
strip the port at the last `:` unless a `]` follows it, strip the path at
the first `/`, trim surrounding brackets. -/
def normalizeTarget (target : Str) : Str :=
  goTrim (pathStrip (portStrip (schemeStrip (goToLower (goTrimSpace target))))) ['[', ']']

/-- `Scope.IsInScope` from `internal/scope/scope.go`: normalize, parse the
target as an IP, check exclusions first (any match refuses), then
inclusions (any match accepts). -/
def IsInScope (s : Scope) (target : Str) : Bool :=
  let t := normalizeTarget target
  let tIP := parseIPv4 t
  if s.excludes.any (fun r => matchRule r t tIP) then false
  else s.includes.any (fun r => matchRule r t tIP)

/-- `Scope.HasWildcard` from `internal/scope/scope.go`: trim + lowercase the
target, then look for a wildcard include rule whose base domain equals the
target or is a strict parent of it.  No other normalization is applied and
exclusion rules are never consulted. -/
def HasWildcard (s : Scope) (target : Str) : Bool :=
  let t := goToLower (goTrimSpace target)
  s.includes.any (fun r =>
    ['*', '.'].isPrefixOf r.pattern &&
      (t = r.pattern.drop 2 || ('.' :: r.pattern.drop 2).isSuffixOf t))

/-! ### Streaming pipeline model (`internal/workflows/active/active.go`)

`ActiveWorkflow.Run` is embedded as a pure control-flow function.  The
external collaborators (subfinder, httpx) are oracles: the raw candidate
stream delivered to the subfinder `ResultCallback`, and the fatal
setup/run errors of the producer and consumer goroutines, are inputs. -/

/-- The counters and the FIFO content maintained by the producer goroutine
of `ActiveWorkflow.Run`. -/
structure ProducerState where
  totalFound : Nat
  inScope : Nat
  excluded : Nat
  fifo : List Str
deriving DecidableEq, Repr

/-- One `ResultCallback` invocation of the producer goroutine: count the
candidate, drop it when blank, count it as excluded when out of scope, and
otherwise count it in scope and push it into the FIFO. -/
def producerStep (s : Scope) (st : ProducerState) (raw : Str) : ProducerState :=
  let st := { st with totalFound := st.totalFound + 1 }
  let host := goTrimSpace raw
  if host = [] then st
  else if !IsInScope s host then { st with excluded := st.excluded + 1 }
  else { st with inScope := st.inScope + 1, fifo := st.fifo ++ [host] }

/-- The producer goroutine over a whole discovery stream. -/
def runProducer (s : Scope) (hosts : List Str) : ProducerState :=
  hosts.foldl (producerStep s) ⟨0, 0, 0, []⟩

/-- The run-terminal errors of `ActiveWorkflow.Run`, per the spec taxonomy:
the two precondition failures (scope membership, wildcard coverage), a
fatal producer error, a fatal consumer error, and the zero-result failure. -/
inductive RunError where
  | precondition (wildcardRequired : Bool)
  | producer (msg : Str)
  | consumer (msg : Str)
  | zeroResult
deriving DecidableEq, Repr

/-- Oracle inputs describing what the external collaborators do during one
run: the candidates delivered by discovery, and the fatal errors (if any)
of the producer and consumer tasks. -/
structure RunInput where
  hosts : List Str
  producerErr : Option Str
  consumerErr : Option Str

/-- The observable outcome of one `ActiveWorkflow.Run`: the returned error
(`none` = nil), whether the producer/consumer tasks were started, and the
final counter state. -/
structure RunOutcome where
  result : Option RunError
  producerStarted : Bool
  consumerStarted : Bool
  counters : ProducerState
deriving DecidableEq, Repr

/-- Control-flow model of `ActiveWorkflow.Run`: the two precondition checks
run before any task starts; then both tasks run to completion, and the
producer error, the consumer error, the zero-in-scope check, and success
are considered in that order. -/
def activeRun (s : Scope) (domain : Str) (inp : RunInput) : RunOutcome :=
  if !IsInScope s domain then
    ⟨some (RunError.precondition false), false, false, ⟨0, 0, 0, []⟩⟩
  else if !HasWildcard s domain then
    ⟨some (RunError.precondition true), false, false, ⟨0, 0, 0, []⟩⟩
  else
    let st := runProducer s inp.hosts
    let res :=
      match inp.producerErr with
      | some e => some (RunError.producer e)
      | none =>
        match inp.consumerErr with
        | some e => some (RunError.consumer e)
        | none => if st.inScope = 0 then some RunError.zeroResult else none
    ⟨res, true, true, st⟩

/-! ### Dedup / recursive expansion model (recon workflow)

`emitUnique` wraps `sync.Map.LoadOrStore`: one atomic check-and-set in
which the first writer wins.  Any interleaving of the concurrent callbacks
is some sequential order of these atomic steps, so the model processes an
arbitrary list of discovered values. -/

/-- The per-run dedup state: the `seen` set and the lines emitted to the
sink, in emission order. -/
structure EmitState where
  seen : List Str
  emitted : List Str
deriving DecidableEq, Repr

/-- `emitUnique` from the recon workflow: `LoadOrStore` on the `seen` set;
emit and report `true` only when the value was absent. -/
def emitUnique (st : EmitState) (v : Str) : EmitState × Bool :=
  if v ∈ st.seen then (st, false)
  else ({ seen := st.seen ++ [v], emitted := st.emitted ++ [v] }, true)

/-- Process a whole (arbitrarily interleaved) stream of discovered values
through `emitUnique`. -/
def processAll (st : EmitState) (vs : List Str) : EmitState :=
  vs.foldl (fun st v => (emitUnique st v).1) st

/-- The `bases` set built by `ReconWorkflow.runSubfinderRecursive`: a seed
is kept when it contains at least two dots (`strings.Count(host, ".") >= 2`);
the Go map is modelled as a first-insertion-ordered duplicate-free list. -/
def expansionBases (seeds : List Str) : List Str :=
  seeds.foldl
    (fun acc h =>
      if 2 ≤ goCountChar h '.' && !acc.contains h then acc ++ [h] else acc)
    []

/-! ### Output destination model

Both workflows open each configured file with
`os.OpenFile(path, os.O_APPEND|os.O_CREATE|os.O_WRONLY, 0644)` and write
one line per result; a file is a list of lines. -/

/-- Opening a destination with `O_APPEND|O_CREATE|O_WRONLY`: an existing
file keeps its content, a missing one starts empty; nothing is truncated. -/
def openAppend (existing : Option (List Str)) : List Str := existing.getD []

/-- The per-result `Fprintln` loop of one run. -/
def writeLines (f : List Str) (lines : List Str) : List Str :=
  lines.foldl (fun acc l => acc ++ [l]) f

/-- One run's effect on one output destination: open in append mode, then
stream the run's lines into it. -/
def runOutput (existing : Option (List Str)) (emitted : List Str) : List Str :=
  writeLines (openAppend existing) emitted

/-! ### Well-formed target variants (for the normalization claims) -/

/-- Characters allowed in a well-formed host name. -/
def hostChar (c : Char) : Bool :=
  c.isAlpha || c.isDigit || c = '.' || c = '-'

/-- A well-formed host: non-empty, built from host characters only. -/
def wellFormedHost (h : Str) : Bool := !h.isEmpty && h.all hostChar

/-- A well-formed scheme: non-empty and alphabetic (e.g. `https`). -/
def schemeOK (s : Str) : Bool := !s.isEmpty && s.all Char.isAlpha

/-- A well-formed port: non-empty and numeric. -/
def portOK (p : Str) : Bool := !p.isEmpty && p.all Char.isDigit

/-- Characters allowed in a well-formed path suffix: anything except a
colon, a closing bracket, and whitespace. -/
def pathChar (c : Char) : Bool := c ≠ ':' && c ≠ ']' && !isSpaceChar c

/-- A well-formed path. -/
def pathOK (q : Str) : Bool := q.all pathChar

/-- Lift a well-formedness check to an optional component. -/
def optOK (f : Str → Bool) : Option Str → Bool
  | none => true
  | some x => f x

/-- Assemble a target variant `[scheme://]host[:port][/path]` from a host
and optional scheme, port and path components. -/
def buildTarget (sch : Option Str) (h : Str) (p q : Option Str) : Str :=
  (match sch with
   | some s => s ++ [':', '/', '/']
   | none => []) ++ h ++
  (match p with
   | some p => ':' :: p
   | none => []) ++
  (match q with
   | some q => '/' :: q
   | none => [])

/-! ### Concrete fixtures -/

/-- `example.com` -/
def exampleCom : Str := ['e', 'x', 'a', 'm', 'p', 'l', 'e', '.', 'c', 'o', 'm']

/-- `*.example.com` -/
def wcExampleCom : Str := '*' :: '.' :: exampleCom

/-- `admin.example.com` -/
def adminExampleCom : Str := ['a', 'd', 'm', 'i', 'n', '.'] ++ exampleCom

/-- `api.example.com` -/
def apiExampleCom : Str := ['a', 'p', 'i', '.'] ++ exampleCom

/-- `https://example.com` -/
def httpsExampleCom : Str := ['h', 't', 't', 'p', 's', ':', '/', '/'] ++ exampleCom

/-- The scope loaded from `*.example.com`. -/
def demoScope : Scope := loadLines [wcExampleCom]

/-- The scope loaded from `*.example.com, -admin.example.com`. -/
def demoScope2 : Scope := loadLines [wcExampleCom, '-' :: adminExampleCom]

/-- The scope loaded from the single exact rule `api.example.com`. -/
def demoScopeApi : Scope := loadLines [apiExampleCom]

/-! ## Character-level lemmas -/

theorem char_le_iff (a b : Char) : (a ≤ b) ↔ a.toNat ≤ b.toNat := by
  rw [Char.le_def, UInt32.le_def]
  simp [Char.toNat, UInt32.toNat, BitVec.le_def]

theorem uint32_le_iff (a b : UInt32) : (a ≤ b) ↔ a.toNat ≤ b.toNat := by
  rw [UInt32.le_def]
  simp [UInt32.toNat, BitVec.le_def]

theorem char_toNat_ofNat (n : Nat) (h : n < 55296) : (Char.ofNat n).toNat = n := by
  unfold Char.ofNat
  split
  · simp [Char.toNat, Char.ofNatAux, UInt32.toNat]
  · rename_i hv; exact absurd (Or.inl h) hv

theorem char_eq_iff (a b : Char) : a = b ↔ a.toNat = b.toNat := by
  constructor
  · intro h; rw [h]
  · intro h
    apply Char.eq_of_val_eq
    apply UInt32.eq_of_toBitVec_eq
    exact BitVec.eq_of_toNat_eq h

theorem char_eq_toNat (c d : Char) (n : Nat) (hd : d.toNat = n) :
    (c = d) ↔ c.toNat = n := by
  rw [char_eq_iff, hd]

theorem toLowerChar_toNat (c : Char) :
    (toLowerChar c).toNat =
      if 65 ≤ c.toNat ∧ c.toNat ≤ 90 then c.toNat + 32 else c.toNat := by
  unfold toLowerChar
  have hA : ('A' : Char).toNat = 65 := rfl
  have hZ : ('Z' : Char).toNat = 90 := rfl
  by_cases h : 65 ≤ c.toNat ∧ c.toNat ≤ 90
  · rw [if_pos h]
    have hb : ('A' ≤ c && c ≤ 'Z') = true := by
      simp only [Bool.and_eq_true, decide_eq_true_eq, char_le_iff, hA, hZ]
      exact h
    simp only [hb, if_true]
    exact char_toNat_ofNat _ (by omega)
  · rw [if_neg h]
    have hb : ('A' ≤ c && c ≤ 'Z') = false := by
      simp only [Bool.and_eq_false_iff, decide_eq_false_iff_not, char_le_iff, hA, hZ]
      omega
    simp only [hb, Bool.false_eq_true, if_false]

theorem toLowerChar_eq_iff (c d : Char)
    (h1 : ¬(65 ≤ d.toNat ∧ d.toNat ≤ 90)) (h2 : ¬(97 ≤ d.toNat ∧ d.toNat ≤ 122)) :
    toLowerChar c = d ↔ c = d := by
  rw [char_eq_iff, char_eq_iff, toLowerChar_toNat]
  split
  · omega
  · exact Iff.rfl

theorem toNat_of_isSpaceChar {c : Char} (h : isSpaceChar c = true) :
    c.toNat = 32 ∨ c.toNat = 9 ∨ c.toNat = 10 ∨ c.toNat = 11 ∨ c.toNat = 12 ∨
      c.toNat = 13 := by
  unfold isSpaceChar at h
  simp only [Bool.or_eq_true, decide_eq_true_eq] at h
  rcases h with ((((h | h) | h) | h) | h) | h <;> subst h <;> decide

theorem isSpaceChar_false_of_toNat {c : Char}
    (h : ¬(c.toNat = 32 ∨ c.toNat = 9 ∨ c.toNat = 10 ∨ c.toNat = 11 ∨
      c.toNat = 12 ∨ c.toNat = 13)) : isSpaceChar c = false := by
  cases hb : isSpaceChar c
  · rfl
  · exact absurd (toNat_of_isSpaceChar hb) h

theorem isSpaceChar_toLowerChar (c : Char) :
    isSpaceChar (toLowerChar c) = isSpaceChar c := by
  by_cases h : 65 ≤ c.toNat ∧ c.toNat ≤ 90
  · have h1 : isSpaceChar c = false := isSpaceChar_false_of_toNat (by omega)
    have h2 : isSpaceChar (toLowerChar c) = false := by
      apply isSpaceChar_false_of_toNat
      rw [toLowerChar_toNat, if_pos h]
      omega
    rw [h1, h2]
  · have : (toLowerChar c).toNat = c.toNat := by rw [toLowerChar_toNat, if_neg h]
    have he : toLowerChar c = c := (char_eq_iff _ _).mpr this
    rw [he]

theorem isDigit_iff (c : Char) : c.isDigit = true ↔ 48 ≤ c.toNat ∧ c.toNat ≤ 57 := by
  unfold Char.isDigit
  simp only [Bool.and_eq_true, decide_eq_true_eq, ge_iff_le, uint32_le_iff]
  constructor
  · intro ⟨a, b⟩
    constructor
    · exact a
    · exact b
  · intro ⟨a, b⟩
    constructor
    · exact a
    · exact b

theorem isAlpha_iff (c : Char) :
    c.isAlpha = true ↔
      (65 ≤ c.toNat ∧ c.toNat ≤ 90) ∨ (97 ≤ c.toNat ∧ c.toNat ≤ 122) := by
  unfold Char.isAlpha Char.isUpper Char.isLower
  simp only [Bool.or_eq_true, Bool.and_eq_true, decide_eq_true_eq, ge_iff_le,
    uint32_le_iff]
  exact Iff.rfl

/-! ## String-level lemmas -/

theorem dropWhile_all_false (p : Char → Bool) (s : Str)
    (h : ∀ c ∈ s, p c = false) : s.dropWhile p = s := by
  cases s with
  | nil => rfl
  | cons a t => simp [List.dropWhile_cons, h a (List.mem_cons_self a t)]

theorem goTrimSpace_eq_self {s : Str} (h : ∀ c ∈ s, isSpaceChar c = false) :
    goTrimSpace s = s := by
  unfold goTrimSpace
  rw [dropWhile_all_false _ _ h, dropWhile_all_false, List.reverse_reverse]
  intro c hc
  exact h c (List.mem_reverse.mp hc)

theorem goTrim_eq_self {s cutset : Str} (h : ∀ c ∈ s, cutset.contains c = false) :
    goTrim s cutset = s := by
  unfold goTrim
  rw [dropWhile_all_false _ _ h, dropWhile_all_false, List.reverse_reverse]
  intro c hc
  exact h c (List.mem_reverse.mp hc)

theorem goToLower_append (a b : Str) :
    goToLower (a ++ b) = goToLower a ++ goToLower b := by
  unfold goToLower
  exact List.map_append toLowerChar a b

theorem goToLower_cons (c : Char) (t : Str) :
    goToLower (c :: t) = toLowerChar c :: goToLower t := rfl

theorem goTrimSpace_goToLower (s : Str) :
    goTrimSpace (goToLower s) = goToLower (goTrimSpace s) := by
  have hcomp : (isSpaceChar ∘ toLowerChar) = isSpaceChar :=
    funext fun c => isSpaceChar_toLowerChar c
  unfold goTrimSpace goToLower
  rw [List.dropWhile_map, hcomp, ← List.map_reverse, List.dropWhile_map, hcomp,
    ← List.map_reverse]

theorem goIndex_first_notMem {c : Char} {cs s : Str} (h : c ∉ s) :
    goIndex (c :: cs) s = none := by
  induction s with
  | nil => simp [goIndex, List.isPrefixOf]
  | cons a t ih =>
    have hca : ¬(c == a) = true := by
      simp only [beq_iff_eq]
      intro he
      exact h (he ▸ List.mem_cons_self a t)
    have hct : c ∉ t := fun hm => h (List.mem_cons_of_mem a hm)
    simp [goIndex, List.isPrefixOf, hca, ih hct]

theorem goIndex_append_first_notMem {c : Char} {cs u v : Str} (h : c ∉ u) :
    goIndex (c :: cs) (u ++ v) = (goIndex (c :: cs) v).map (· + u.length) := by
  induction u with
  | nil =>
    simp only [List.nil_append, List.length_nil]
    cases goIndex (c :: cs) v <;> simp
  | cons a t ih =>
    have hca : ¬(c == a) = true := by
      simp only [beq_iff_eq]
      intro he
      exact h (he ▸ List.mem_cons_self a t)
    have hct : c ∉ t := fun hm => h (List.mem_cons_of_mem a hm)
    simp only [List.cons_append, goIndex, List.isPrefixOf, hca, Bool.false_and,
      Bool.false_eq_true, if_false, List.append_eq, ih hct, List.length_cons]
    cases goIndex (c :: cs) v with
    | none => rfl
    | some k =>
      simp [Nat.add_assoc]

theorem goLastIndexChar_notMem {s : Str} {c : Char} (h : c ∉ s) :
    goLastIndexChar s c = none := by
  induction s with
  | nil => rfl
  | cons a t ih =>
    have hct : c ∉ t := fun hm => h (List.mem_cons_of_mem a hm)
    have hca : ¬(a = c) := by
      intro he
      exact h (he ▸ List.mem_cons_self a t)
    simp [goLastIndexChar, ih hct, hca]

theorem goLastIndexChar_append_notMem_right {u v : Str} {c : Char} (h : c ∉ v) :
    goLastIndexChar (u ++ v) c = goLastIndexChar u c := by
  induction u with
  | nil => simp [goLastIndexChar_notMem h, goLastIndexChar]
  | cons a t ih => simp [goLastIndexChar, ih]

theorem goLastIndexChar_append_some {u v : Str} {c : Char} {j : Nat}
    (h : goLastIndexChar v c = some j) :
    goLastIndexChar (u ++ v) c = some (u.length + j) := by
  induction u with
  | nil => simpa using h
  | cons a t ih =>
    show (match goLastIndexChar (t ++ v) c with
      | some k => some (k + 1)
      | none => if a = c then some 0 else none) = some ((a :: t).length + j)
    rw [ih]
    simp only [List.length_cons]
    congr 1
    omega

/-! ## Character classes of lowered target components -/

/-- Numeric ranges of a lowered well-formed host character. -/
theorem mem_lower_host {h : Str} (H : h.all hostChar = true) {c : Char}
    (hc : c ∈ goToLower h) :
    c.toNat = 45 ∨ c.toNat = 46 ∨ (48 ≤ c.toNat ∧ c.toNat ≤ 57) ∨
      (97 ≤ c.toNat ∧ c.toNat ≤ 122) := by
  obtain ⟨c0, hc0, rfl⟩ := List.mem_map.mp hc
  have hh := (List.all_eq_true.mp H) c0 hc0
  unfold hostChar at hh
  simp only [Bool.or_eq_true, decide_eq_true_eq] at hh
  rw [toLowerChar_toNat]
  rcases hh with ((ha | hd) | he) | he
  · rcases (isAlpha_iff c0).mp ha with h1 | h1 <;> split <;> omega
  · have := (isDigit_iff c0).mp hd
    split <;> omega
  · subst he; decide
  · subst he; decide

/-- Numeric range of a lowered scheme character. -/
theorem mem_lower_scheme {s : Str} (H : s.all Char.isAlpha = true) {c : Char}
    (hc : c ∈ goToLower s) : 97 ≤ c.toNat ∧ c.toNat ≤ 122 := by
  obtain ⟨c0, hc0, rfl⟩ := List.mem_map.mp hc
  have hh := (List.all_eq_true.mp H) c0 hc0
  rw [toLowerChar_toNat]
  rcases (isAlpha_iff c0).mp hh with h1 | h1 <;> split <;> omega

/-- Numeric range of a lowered port character. -/
theorem mem_lower_port {p : Str} (H : p.all Char.isDigit = true) {c : Char}
    (hc : c ∈ goToLower p) : 48 ≤ c.toNat ∧ c.toNat ≤ 57 := by
  obtain ⟨c0, hc0, rfl⟩ := List.mem_map.mp hc
  have hh := (isDigit_iff c0).mp ((List.all_eq_true.mp H) c0 hc0)
  rw [toLowerChar_toNat]
  split <;> omega

/-- Properties of a lowered path character: still no colon, no closing
bracket, no whitespace. -/
theorem mem_lower_path {q : Str} (H : q.all pathChar = true) {c : Char}
    (hc : c ∈ goToLower q) :
    c ≠ ':' ∧ c ≠ ']' ∧ isSpaceChar c = false := by
  obtain ⟨c0, hc0, rfl⟩ := List.mem_map.mp hc
  have hh := (List.all_eq_true.mp H) c0 hc0
  unfold pathChar at hh
  simp only [Bool.and_eq_true, decide_eq_true_eq, Bool.not_eq_true'] at hh
  obtain ⟨⟨h1, h2⟩, h3⟩ := hh
  refine ⟨?_, ?_, ?_⟩
  · intro he
    exact h1 ((toLowerChar_eq_iff c0 ':' (by decide) (by decide)).mp he)
  · intro he
    exact h2 ((toLowerChar_eq_iff c0 ']' (by decide) (by decide)).mp he)
  · rw [isSpaceChar_toLowerChar]
    exact h3

/-- Numeric ranges of a (raw) well-formed host character. -/
theorem hostChar_toNat {c : Char} (h : hostChar c = true) :
    c.toNat = 45 ∨ c.toNat = 46 ∨ (48 ≤ c.toNat ∧ c.toNat ≤ 57) ∨
      (65 ≤ c.toNat ∧ c.toNat ≤ 90) ∨ (97 ≤ c.toNat ∧ c.toNat ≤ 122) := by
  unfold hostChar at h
  simp only [Bool.or_eq_true, decide_eq_true_eq] at h
  rcases h with ((ha | hd) | he) | he
  · rcases (isAlpha_iff c).mp ha with h1 | h1 <;> omega
  · have := (isDigit_iff c).mp hd
    omega
  · subst he; decide
  · subst he; decide

/-- Numeric ranges of a (raw) path character: needed only to exclude
whitespace. -/
theorem pathChar_nospace {c : Char} (h : pathChar c = true) :
    isSpaceChar c = false := by
  unfold pathChar at h
  simp only [Bool.and_eq_true, Bool.not_eq_true'] at h
  exact h.2

/-- No character of a well-formed assembled target is whitespace, so
`strings.TrimSpace` leaves it unchanged. -/
theorem buildTarget_nospace {h : Str} {sch p q : Option Str}
    (hall : h.all hostChar = true) (Hs : optOK schemeOK sch = true)
    (Hp : optOK portOK p = true) (Hq : optOK pathOK q = true) :
    ∀ c ∈ buildTarget sch h p q, isSpaceChar c = false := by
  intro c hc
  unfold buildTarget at hc
  rcases List.mem_append.mp hc with hABh | hC
  rcases List.mem_append.mp hABh with hAh | hB
  rcases List.mem_append.mp hAh with hA | hH
  · rcases sch with _ | s0
    · simp at hA
    · simp only [optOK, schemeOK, Bool.and_eq_true] at Hs
      rcases List.mem_append.mp hA with hs | hsep
      · have := (isAlpha_iff c).mp ((List.all_eq_true.mp Hs.2) c hs)
        exact isSpaceChar_false_of_toNat (by omega)
      · have hc3 : c = ':' ∨ c = '/' ∨ c = '/' := by simpa using hsep
        rcases hc3 with h1 | h1 | h1 <;> subst h1 <;> decide
  · have := hostChar_toNat ((List.all_eq_true.mp hall) c hH)
    exact isSpaceChar_false_of_toNat (by omega)
  · rcases p with _ | p0
    · simp at hB
    · simp only [optOK, portOK, Bool.and_eq_true] at Hp
      rcases List.mem_cons.mp hB with h1 | h1
      · subst h1; decide
      · have := (isDigit_iff c).mp ((List.all_eq_true.mp Hp.2) c h1)
        exact isSpaceChar_false_of_toNat (by omega)
  · rcases q with _ | q0
    · simp at hC
    · simp only [optOK, pathOK] at Hq
      rcases List.mem_cons.mp hC with h1 | h1
      · subst h1; decide
      · exact pathChar_nospace ((List.all_eq_true.mp Hq) c h1)

/-! ## Per-stage normalization lemmas -/

theorem schemeStrip_of_none {t : Str} (h : goIndex [':', '/', '/'] t = none) :
    schemeStrip t = t := by
  unfold schemeStrip
  rw [h]

theorem schemeStrip_append {s0 rest : Str} (h : ':' ∉ s0) :
    schemeStrip (s0 ++ ':' :: '/' :: '/' :: rest) = rest := by
  unfold schemeStrip
  rw [goIndex_append_first_notMem h]
  have h0 : goIndex [':', '/', '/'] (':' :: '/' :: '/' :: rest) = some 0 := by
    simp [goIndex, List.isPrefixOf]
  rw [h0]
  simp only [Option.map_some', Nat.zero_add]
  have hsplit : s0 ++ ':' :: '/' :: '/' :: rest = (s0 ++ [':', '/', '/']) ++ rest := by
    simp
  have hlen : s0.length + 3 = (s0 ++ [':', '/', '/']).length := by simp
  rw [hsplit, hlen, List.drop_left]

theorem portStrip_no_colon {t : Str} (h : ':' ∉ t) : portStrip t = t := by
  unfold portStrip
  rw [goLastIndexChar_notMem h]

theorem portStrip_append {lh rest : Str}
    (h2 : ':' ∉ rest) (h3 : ']' ∉ rest) :
    portStrip (lh ++ ':' :: rest) = lh := by
  have hv : goLastIndexChar (':' :: rest) ':' = some 0 := by
    simp [goLastIndexChar, goLastIndexChar_notMem h2]
  have hl : goLastIndexChar (lh ++ ':' :: rest) ':' = some lh.length := by
    simpa using goLastIndexChar_append_some (u := lh) hv
  have hbrk : ']' ∉ ':' :: rest := by
    intro hm
    rcases List.mem_cons.mp hm with hm | hm
    · exact absurd hm (by decide)
    · exact h3 hm
  have hc : goContains ((lh ++ ':' :: rest).drop lh.length) [']'] = false := by
    rw [List.drop_left]
    unfold goContains
    rw [goIndex_first_notMem hbrk]
    rfl
  unfold portStrip
  rw [hl]
  simp only [hc, Bool.false_eq_true, if_false]
  exact List.take_left lh _

theorem pathStrip_no_slash {t : Str} (h : '/' ∉ t) : pathStrip t = t := by
  unfold pathStrip
  rw [goIndex_first_notMem h]

theorem pathStrip_append {lh lq : Str} (h : '/' ∉ lh) :
    pathStrip (lh ++ '/' :: lq) = lh := by
  unfold pathStrip
  rw [goIndex_append_first_notMem h]
  have h0 : goIndex ['/'] ('/' :: lq) = some 0 := by
    simp [goIndex, List.isPrefixOf]
  rw [h0]
  simp only [Option.map_some', Nat.zero_add]
  exact List.take_left lh _

/-- After the port colon, a digit head prevents the `://` separator from
matching, and no colon occurs further right. -/
theorem goIndex_sep_none_cons {d : Char} {rest : Str}
    (hd0 : 48 ≤ d.toNat ∧ d.toNat ≤ 57) (hcolon : ':' ∉ rest) :
    goIndex [':', '/', '/'] (':' :: d :: rest) = none := by
  have hslash : ¬('/' == d) = true := by
    simp only [beq_iff_eq]
    intro he
    rw [← he] at hd0
    revert hd0
    decide
  have hdneq : ¬(':' = d) := by
    intro he
    rw [← he] at hd0
    revert hd0
    decide
  simp [goIndex, List.isPrefixOf, hslash, hdneq, goIndex_first_notMem hcolon]

/-! ## Absence facts for lowered components -/

theorem lower_host_notMem {h : Str} (H : h.all hostChar = true) :
    ':' ∉ goToLower h ∧ '/' ∉ goToLower h ∧ ']' ∉ goToLower h ∧
      '[' ∉ goToLower h := by
  refine ⟨?_, ?_, ?_, ?_⟩ <;>
    · intro hm
      have := mem_lower_host H hm
      revert this
      decide

theorem lower_scheme_notMem {s : Str} (H : s.all Char.isAlpha = true) :
    ':' ∉ goToLower s := by
  intro hm
  have := mem_lower_scheme H hm
  revert this
  decide

theorem lower_port_notMem {p : Str} (H : p.all Char.isDigit = true) :
    ':' ∉ goToLower p ∧ ']' ∉ goToLower p := by
  constructor <;>
    · intro hm
      have := mem_lower_port H hm
      revert this
      decide

theorem lower_path_notMem {q : Str} (H : q.all pathChar = true) :
    ':' ∉ goToLower q ∧ ']' ∉ goToLower q := by
  constructor <;> intro hm
  · exact absurd rfl (mem_lower_path H hm).1
  · exact absurd rfl (mem_lower_path H hm).2.1

theorem lower_host_trim {h : Str} (H : h.all hostChar = true) :
    goTrim (goToLower h) ['[', ']'] = goToLower h := by
  apply goTrim_eq_self
  intro c hc
  have hr := mem_lower_host H hc
  have h91 : ¬(c = '[') := by rw [char_eq_toNat c '[' 91 rfl]; omega
  have h93 : ¬(c = ']') := by rw [char_eq_toNat c ']' 93 rfl]; omega
  simp [List.contains, h91, h93]

theorem toLowerChar_colon : toLowerChar ':' = ':' := rfl

theorem toLowerChar_slash : toLowerChar '/' = '/' := rfl

theorem goToLower_nil : goToLower [] = [] := rfl

/-- Central normalization lemma: a well-formed assembled target
`[scheme://]host[:port][/path]` normalizes to the lowercased host. -/
theorem normalize_build {h : Str} {sch p q : Option Str}
    (Hh : wellFormedHost h = true) (Hs : optOK schemeOK sch = true)
    (Hp : optOK portOK p = true) (Hq : optOK pathOK q = true) :
    normalizeTarget (buildTarget sch h p q) = goToLower h := by
  have hall : h.all hostChar = true := by
    unfold wellFormedHost at Hh
    exact ((Bool.and_eq_true _ _).mp Hh).2
  have hTS := goTrimSpace_eq_self (buildTarget_nospace hall Hs Hp Hq)
  have hhc := lower_host_notMem hall
  have htrim := lower_host_trim hall
  unfold normalizeTarget
  rw [hTS]
  rcases sch with _ | s0 <;> rcases p with _ | p0 <;> rcases q with _ | q0
  · -- no scheme, no port, no path
    simp only [buildTarget, List.nil_append, List.append_nil]
    rw [schemeStrip_of_none (goIndex_first_notMem hhc.1),
      portStrip_no_colon hhc.1, pathStrip_no_slash hhc.2.1, htrim]
  · -- no scheme, no port, path
    have hq : q0.all pathChar = true := by simpa [optOK, pathOK] using Hq
    have hlq := lower_path_notMem hq
    have hshape : goToLower (buildTarget none h none (some q0)) =
        goToLower h ++ '/' :: goToLower q0 := by
      simp [buildTarget, goToLower_append, goToLower_cons, toLowerChar_slash]
    rw [hshape]
    have hnc : ':' ∉ goToLower h ++ '/' :: goToLower q0 := by
      intro hm
      rcases List.mem_append.mp hm with hm | hm
      · exact hhc.1 hm
      · rcases List.mem_cons.mp hm with hm | hm
        · exact absurd hm (by decide)
        · exact hlq.1 hm
    rw [schemeStrip_of_none (goIndex_first_notMem hnc), portStrip_no_colon hnc,
      pathStrip_append hhc.2.1, htrim]
  · -- no scheme, port, no path
    have hp : p0.isEmpty = false ∧ p0.all Char.isDigit = true := by
      simpa [optOK, portOK] using Hp
    cases p0 with
    | nil => simp at hp
    | cons c0 t0 =>
      have hdig := hp.2
      have hd0 := mem_lower_port hdig
        (List.mem_cons_self (toLowerChar c0) (goToLower t0) :
          toLowerChar c0 ∈ goToLower (c0 :: t0))
      have hlp := lower_port_notMem hdig
      have hct : ':' ∉ goToLower t0 := fun hm =>
        hlp.1 (List.mem_cons_of_mem _ hm)
      have hshape : goToLower (buildTarget none h (some (c0 :: t0)) none) =
          goToLower h ++ ':' :: toLowerChar c0 :: goToLower t0 := by
        simp [buildTarget, goToLower_append, goToLower_cons, toLowerChar_colon]
      rw [hshape]
      have hsep : goIndex [':', '/', '/']
          (goToLower h ++ ':' :: toLowerChar c0 :: goToLower t0) = none := by
        rw [goIndex_append_first_notMem hhc.1, goIndex_sep_none_cons hd0 hct]
        rfl
      have hport : portStrip
          (goToLower h ++ ':' :: toLowerChar c0 :: goToLower t0) =
          goToLower h :=
        portStrip_append (fun hm => hlp.1 hm) (fun hm => hlp.2 hm)
      rw [schemeStrip_of_none hsep, hport, pathStrip_no_slash hhc.2.1, htrim]
  · -- no scheme, port, path
    have hp : p0.isEmpty = false ∧ p0.all Char.isDigit = true := by
      simpa [optOK, portOK] using Hp
    have hq : q0.all pathChar = true := by simpa [optOK, pathOK] using Hq
    have hlq := lower_path_notMem hq
    cases p0 with
    | nil => simp at hp
    | cons c0 t0 =>
      have hdig := hp.2
      have hd0 := mem_lower_port hdig
        (List.mem_cons_self (toLowerChar c0) (goToLower t0) :
          toLowerChar c0 ∈ goToLower (c0 :: t0))
      have hlp := lower_port_notMem hdig
      have hshape : goToLower (buildTarget none h (some (c0 :: t0)) (some q0)) =
          goToLower h ++ ':' :: toLowerChar c0 ::
            (goToLower t0 ++ '/' :: goToLower q0) := by
        simp [buildTarget, goToLower_append, goToLower_cons, toLowerChar_colon,
          toLowerChar_slash]
      rw [hshape]
      have hrestc : ':' ∉ goToLower t0 ++ '/' :: goToLower q0 := by
        intro hm
        rcases List.mem_append.mp hm with hm | hm
        · exact hlp.1 (List.mem_cons_of_mem _ hm)
        · rcases List.mem_cons.mp hm with hm | hm
          · exact absurd hm (by decide)
          · exact hlq.1 hm
      have hsep : goIndex [':', '/', '/'] (goToLower h ++ ':' :: toLowerChar c0 ::
          (goToLower t0 ++ '/' :: goToLower q0)) = none := by
        rw [goIndex_append_first_notMem hhc.1, goIndex_sep_none_cons hd0 hrestc]
        rfl
      have hrestb : ']' ∉ toLowerChar c0 :: (goToLower t0 ++ '/' :: goToLower q0) := by
        intro hm
        rcases List.mem_cons.mp hm with hm | hm
        · have : (']' : Char) ∈ goToLower (c0 :: t0) := hm ▸
            List.mem_cons_self (toLowerChar c0) (goToLower t0)
          exact hlp.2 (hm ▸ List.mem_cons_self _ _)
        · rcases List.mem_append.mp hm with hm | hm
          · exact hlp.2 (List.mem_cons_of_mem _ hm)
          · rcases List.mem_cons.mp hm with hm | hm
            · exact absurd hm (by decide)
            · exact hlq.2 hm
      have hrestc2 : ':' ∉ toLowerChar c0 :: (goToLower t0 ++ '/' :: goToLower q0) := by
        intro hm
        rcases List.mem_cons.mp hm with hm | hm
        · exact hlp.1 (hm ▸ List.mem_cons_self _ _)
        · exact hrestc hm
      have hport : portStrip (goToLower h ++ ':' :: toLowerChar c0 ::
          (goToLower t0 ++ '/' :: goToLower q0)) = goToLower h :=
        portStrip_append hrestc2 hrestb
      rw [schemeStrip_of_none hsep, hport, pathStrip_no_slash hhc.2.1, htrim]
  · -- scheme, no port, no path
    have hs : s0.all Char.isAlpha = true := by
      have hs0 := Hs
      simp only [optOK, schemeOK, Bool.and_eq_true] at hs0
      exact hs0.2
    have hsc := lower_scheme_notMem hs
    have hshape : goToLower (buildTarget (some s0) h none none) =
        goToLower s0 ++ ':' :: '/' :: '/' :: goToLower h := by
      simp [buildTarget, goToLower_append, goToLower_cons, toLowerChar_colon,
        toLowerChar_slash]
    rw [hshape, schemeStrip_append hsc, portStrip_no_colon hhc.1,
      pathStrip_no_slash hhc.2.1, htrim]
  · -- scheme, no port, path
    have hs : s0.all Char.isAlpha = true := by
      have hs0 := Hs
      simp only [optOK, schemeOK, Bool.and_eq_true] at hs0
      exact hs0.2
    have hsc := lower_scheme_notMem hs
    have hq : q0.all pathChar = true := by simpa [optOK, pathOK] using Hq
    have hlq := lower_path_notMem hq
    have hshape : goToLower (buildTarget (some s0) h none (some q0)) =
        goToLower s0 ++ ':' :: '/' :: '/' ::
          (goToLower h ++ '/' :: goToLower q0) := by
      simp [buildTarget, goToLower_append, goToLower_cons, toLowerChar_colon,
        toLowerChar_slash]
    rw [hshape, schemeStrip_append hsc]
    have hnc : ':' ∉ goToLower h ++ '/' :: goToLower q0 := by
      intro hm
      rcases List.mem_append.mp hm with hm | hm
      · exact hhc.1 hm
      · rcases List.mem_cons.mp hm with hm | hm
        · exact absurd hm (by decide)
        · exact hlq.1 hm
    rw [portStrip_no_colon hnc, pathStrip_append hhc.2.1, htrim]
  · -- scheme, port, no path
    have hs : s0.all Char.isAlpha = true := by
      have hs0 := Hs
      simp only [optOK, schemeOK, Bool.and_eq_true] at hs0
      exact hs0.2
    have hsc := lower_scheme_notMem hs
    have hp : p0.isEmpty = false ∧ p0.all Char.isDigit = true := by
      simpa [optOK, portOK] using Hp
    have hdig := hp.2
    have hlp := lower_port_notMem hdig
    have hshape : goToLower (buildTarget (some s0) h (some p0) none) =
        goToLower s0 ++ ':' :: '/' :: '/' ::
          (goToLower h ++ ':' :: goToLower p0) := by
      simp [buildTarget, goToLower_append, goToLower_cons, toLowerChar_colon,
        toLowerChar_slash]
    rw [hshape, schemeStrip_append hsc,
      portStrip_append (fun hm => hlp.1 hm) (fun hm => hlp.2 hm),
      pathStrip_no_slash hhc.2.1, htrim]
  · -- scheme, port, path
    have hs : s0.all Char.isAlpha = true := by
      have hs0 := Hs
      simp only [optOK, schemeOK, Bool.and_eq_true] at hs0
      exact hs0.2
    have hsc := lower_scheme_notMem hs
    have hp : p0.isEmpty = false ∧ p0.all Char.isDigit = true := by
      simpa [optOK, portOK] using Hp
    have hdig := hp.2
    have hlp := lower_port_notMem hdig
    have hq : q0.all pathChar = true := by simpa [optOK, pathOK] using Hq
    have hlq := lower_path_notMem hq
    have hshape : goToLower (buildTarget (some s0) h (some p0) (some q0)) =
        goToLower s0 ++ ':' :: '/' :: '/' ::
          (goToLower h ++ ':' :: (goToLower p0 ++ '/' :: goToLower q0)) := by
      simp [buildTarget, goToLower_append, goToLower_cons, toLowerChar_colon,
        toLowerChar_slash]
    have hrestc : ':' ∉ goToLower p0 ++ '/' :: goToLower q0 := by
      intro hm
      rcases List.mem_append.mp hm with hm | hm
      · exact hlp.1 hm
      · rcases List.mem_cons.mp hm with hm | hm
        · exact absurd hm (by decide)
        · exact hlq.1 hm
    have hrestb : ']' ∉ goToLower p0 ++ '/' :: goToLower q0 := by
      intro hm
      rcases List.mem_append.mp hm with hm | hm
      · exact hlp.2 hm
      · rcases List.mem_cons.mp hm with hm | hm
        · exact absurd hm (by decide)
        · exact hlq.2 hm
    rw [hshape, schemeStrip_append hsc, portStrip_append hrestc hrestb,
      pathStrip_no_slash hhc.2.1, htrim]

/-- `IsInScope` factors through `normalizeTarget`. -/
theorem IsInScope_congr {s : Scope} {a b : Str}
    (h : normalizeTarget a = normalizeTarget b) :
    IsInScope s a = IsInScope s b := by
  unfold IsInScope
  rw [h]

/-- `normalizeTarget` depends on the target only through its lowercasing. -/
theorem normalizeTarget_lower_eq {t u : Str} (h : goToLower t = goToLower u) :
    normalizeTarget t = normalizeTarget u := by
  unfold normalizeTarget
  rw [← goTrimSpace_goToLower, ← goTrimSpace_goToLower, h]

theorem buildTarget_none (h : Str) : buildTarget none h none none = h := by
  simp [buildTarget]

/-- A well-formed bare host normalizes to its lowercasing. -/
theorem normalize_host {h : Str} (Hh : wellFormedHost h = true) :
    normalizeTarget h = goToLower h := by
  have hs0 : optOK schemeOK none = true := rfl
  have hp0 : optOK portOK none = true := rfl
  have hq0 : optOK pathOK none = true := rfl
  have := normalize_build Hh hs0 hp0 hq0
  rwa [buildTarget_none] at this

/-- Wildcard matching, characterized: `*.base` matches exactly the
lowercased base itself and strings ending in `"." ++ base`. -/
theorem matchPattern_wildcard_iff (base target : Str) :
    matchPattern ('*' :: '.' :: base) target = true ↔
      (goToLower target = goToLower base ∨
        ('.' :: goToLower base) <:+ goToLower target) := by
  have hlow : goToLower ('*' :: '.' :: base) = '*' :: '.' :: goToLower base := rfl
  unfold matchPattern
  rw [hlow]
  by_cases h1 : ('*' :: '.' :: goToLower base) = goToLower target
  · rw [if_pos h1]
    simp only [true_iff]
    right
    rw [← h1]
    exact List.suffix_cons '*' ('.' :: goToLower base)
  · rw [if_neg h1]
    have hpre : (['*', '.'].isPrefixOf ('*' :: '.' :: goToLower base)) = true := by
      simp [List.isPrefixOf]
    simp only [hpre, if_true]
    have hdrop : List.drop 2 ('*' :: '.' :: goToLower base) = goToLower base := rfl
    simp only [hdrop]
    by_cases h2 : goToLower target = goToLower base
    · simp [h2]
    · simp only [h2, Bool.false_eq_true, if_false, false_or]
      by_cases h3 : ('.' :: goToLower base).isSuffixOf (goToLower target) = true
      · simp [h3, List.isSuffixOf_iff_suffix.mp h3]
      · rw [if_neg h3]
        simp only [Bool.false_eq_true, false_iff]
        intro hs
        exact h3 (List.isSuffixOf_iff_suffix.mpr hs)

/-- Claim C1: exclusion dominance.  Whenever the (normalized) target
matches at least one exclusion rule, `IsInScope` answers `false`, no matter
which inclusion rules also match and in which order the rules appear. -/
theorem C1_exclusion_dominance (s : Scope) (target : Str)
    (h : ∃ r ∈ s.excludes, matchRule r (normalizeTarget target)
      (parseIPv4 (normalizeTarget target)) = true) :
    IsInScope s target = false := by
  unfold IsInScope
  have hany : s.excludes.any (fun r => matchRule r (normalizeTarget target)
      (parseIPv4 (normalizeTarget target))) = true := by
    obtain ⟨r, hr, hm⟩ := h
    exact List.any_eq_true.mpr ⟨r, hr, hm⟩
  simp [hany]

/-- Witness for C1: in the scope `*.example.com, -admin.example.com`, the
target `admin.example.com` matches both an include and an exclude rule,
and `IsInScope` rejects it. -/
theorem C1_witness :
    (∃ r ∈ demoScope2.excludes, matchRule r (normalizeTarget adminExampleCom)
      (parseIPv4 (normalizeTarget adminExampleCom)) = true) ∧
    (∃ r ∈ demoScope2.includes, matchRule r (normalizeTarget adminExampleCom)
      (parseIPv4 (normalizeTarget adminExampleCom)) = true) ∧
    IsInScope demoScope2 adminExampleCom = false :=
  ⟨by decide, by decide,
    C1_exclusion_dominance demoScope2 adminExampleCom (by decide)⟩

/-- Claim C2: wildcard matching respects label boundaries.  For every
wildcard pattern `*.base`, `matchPattern` answers `true` exactly when the
lowercased target equals the lowercased base or ends in `"." ++ base`; in
particular `*.example.com` matches `example.com` and `a.b.example.com` but
not `evilexample.com`. -/
theorem C2_wildcard_label_boundary :
    (∀ (base target : Str),
      matchPattern ('*' :: '.' :: base) target = true ↔
        (goToLower target = goToLower base ∨
          ('.' :: goToLower base) <:+ goToLower target)) ∧
    matchPattern wcExampleCom exampleCom = true ∧
    matchPattern wcExampleCom (['a', '.', 'b', '.'] ++ exampleCom) = true ∧
    matchPattern wcExampleCom (['e', 'v', 'i', 'l'] ++ exampleCom) = false :=
  ⟨matchPattern_wildcard_iff, by decide, by decide, by decide⟩

/-- Claim C3: normalization invariance.  `IsInScope` is case-insensitive,
and on a well-formed host it is unchanged by adding a scheme prefix, a
`:port` suffix and a `/path` suffix; colons inside a bracketed IPv6
literal are not treated as a port separator, and surrounding brackets are
removed. -/
theorem C3_normalization_invariance :
    (∀ (s : Scope) (t u : Str), goToLower t = goToLower u →
      IsInScope s t = IsInScope s u) ∧
    (∀ (s : Scope) (sch : Option Str) (h : Str) (p q : Option Str),
      wellFormedHost h = true → optOK schemeOK sch = true →
      optOK portOK p = true → optOK pathOK q = true →
      IsInScope s (buildTarget sch h p q) = IsInScope s h) ∧
    normalizeTarget ['[', ':', ':', '1', ']', ':', '8', '0', '8', '0'] =
      [':', ':', '1'] ∧
    normalizeTarget ['[', '2', '0', '0', '1', ':', 'd', 'b', '8', ':', ':', '1', ']'] =
      ['2', '0', '0', '1', ':', 'd', 'b', '8', ':', ':', '1'] := by
  refine ⟨?_, ?_, by decide, by decide⟩
  · intro s t u hlow
    exact IsInScope_congr (normalizeTarget_lower_eq hlow)
  · intro s sch h p q Hh Hs Hp Hq
    exact IsInScope_congr ((normalize_build Hh Hs Hp Hq).trans
      (normalize_host Hh).symm)

/-- Witness for C3: `HTTPS://Example.COM:8080/ab` is in scope for
`*.example.com` exactly when `example.com` is. -/
theorem C3_witness :
    IsInScope demoScope
      ['H', 'T', 'T', 'P', 'S', ':', '/', '/', 'E', 'x', 'a', 'm', 'p', 'l', 'e',
        '.', 'C', 'o', 'm', ':', '8', '0', '8', '0', '/', 'a', 'b'] =
      IsInScope demoScope exampleCom := by
  have h2 := C3_normalization_invariance.2.1 demoScope
    (some ['h', 't', 't', 'p', 's']) exampleCom (some ['8', '0', '8', '0'])
    (some ['a', 'b']) (by decide) (by decide) (by decide) (by decide)
  have h1 := C3_normalization_invariance.1 demoScope
    ['H', 'T', 'T', 'P', 'S', ':', '/', '/', 'E', 'x', 'a', 'm', 'p', 'l', 'e',
      '.', 'C', 'o', 'm', ':', '8', '0', '8', '0', '/', 'a', 'b']
    (buildTarget (some ['h', 't', 't', 'p', 's']) exampleCom
      (some ['8', '0', '8', '0']) (some ['a', 'b'])) (by decide)
  exact h1.trans h2

/-! ## CIDR / IP rule lemmas (claim C4) -/

theorem splitOnChar_ne_nil (s : Str) (c : Char) : splitOnChar s c ≠ [] := by
  cases s with
  | nil => simp [splitOnChar]
  | cons a t =>
    unfold splitOnChar
    by_cases hac : a = c
    · simp [hac]
    · rw [if_neg hac]
      cases splitOnChar t c <;> simp

theorem splitOnChar_mem {s : Str} {c x : Char} (hx : x ∈ s) :
    x = c ∨ ∃ f ∈ splitOnChar s c, x ∈ f := by
  induction s with
  | nil => simp at hx
  | cons a t ih =>
    unfold splitOnChar
    by_cases hac : a = c
    · rw [if_pos hac]
      rcases List.mem_cons.mp hx with rfl | hxt
      · exact Or.inl hac
      · rcases ih hxt with heq | ⟨f, hf, hxf⟩
        · exact Or.inl heq
        · exact Or.inr ⟨f, List.mem_cons_of_mem _ hf, hxf⟩
    · rw [if_neg hac]
      obtain ⟨hd, tl, hsp⟩ : ∃ hd tl, splitOnChar t c = hd :: tl := by
        cases hsp : splitOnChar t c with
        | nil => exact absurd hsp (splitOnChar_ne_nil t c)
        | cons hd tl => exact ⟨hd, tl, rfl⟩
      rw [hsp]
      rcases List.mem_cons.mp hx with rfl | hxt
      · exact Or.inr ⟨x :: hd, List.mem_cons_self _ _, List.mem_cons_self _ _⟩
      · rcases ih hxt with heq | ⟨f, hf, hxf⟩
        · exact Or.inl heq
        · rw [hsp] at hf
          rcases List.mem_cons.mp hf with rfl | hftl
          · exact Or.inr ⟨a :: f, List.mem_cons_self _ _,
              List.mem_cons_of_mem _ hxf⟩
          · exact Or.inr ⟨f, List.mem_cons_of_mem _ hftl, hxf⟩

theorem parseOctet_digits {f : Str} {v : Nat} (h : parseOctet f = some v) :
    f.all Char.isDigit = true := by
  unfold parseOctet at h
  split_ifs at h with h1 h2 h3
  · simpa using h3

theorem parseIPv4_digits {w : Str} {ip : Nat} (h : parseIPv4 w = some ip) :
    ∀ f ∈ splitOnChar w '.', f.all Char.isDigit = true := by
  unfold parseIPv4 at h
  split at h
  · rename_i a b c0 d heq
    split at h
    · rename_i x y z w' hA hB hC hD
      rw [heq]
      intro f hf
      have hf4 : f = a ∨ f = b ∨ f = c0 ∨ f = d := by simpa using hf
      rcases hf4 with rfl | rfl | rfl | rfl
      · exact parseOctet_digits hA
      · exact parseOctet_digits hB
      · exact parseOctet_digits hC
      · exact parseOctet_digits hD
    · simp at h
  · simp at h

theorem parseIPv4_notMem_slash {w : Str} {ip : Nat}
    (h : parseIPv4 w = some ip) : '/' ∉ w := by
  intro hm
  rcases splitOnChar_mem (c := '.') hm with heq | ⟨f, hf, hxf⟩
  · exact absurd heq (by decide)
  · have := (List.all_eq_true.mp (parseIPv4_digits h f hf)) '/' hxf
    revert this
    decide

theorem applyMask_32 (x : Nat) : applyMask x 32 = x := by
  unfold applyMask
  simp

theorem parseCIDR_append_32 {w : Str} {ip : Nat} (h : parseIPv4 w = some ip) :
    parseCIDR (w ++ ['/', '3', '2']) = some ⟨ip, 32⟩ := by
  unfold parseCIDR
  rw [goIndex_append_first_notMem (parseIPv4_notMem_slash h)]
  have h0 : goIndex ['/'] ['/', '3', '2'] = some 0 := by
    simp [goIndex, List.isPrefixOf]
  rw [h0]
  simp only [Option.map_some', Nat.zero_add]
  have ht : (w ++ ['/', '3', '2']).take w.length = w := List.take_left w _
  have hd : (w ++ ['/', '3', '2']).drop (w.length + 1) = ['3', '2'] := by
    have hsplit : w ++ ['/', '3', '2'] = (w ++ ['/']) ++ ['3', '2'] := by simp
    have hlen : w.length + 1 = (w ++ ['/']).length := by simp
    rw [hsplit, hlen, List.drop_left]
  rw [ht, hd, h]
  have hm : parseMaskLen ['3', '2'] = some 32 := by decide
  rw [hm]
  show some (⟨applyMask ip 32, 32⟩ : IPNet) = some ⟨ip, 32⟩
  rw [applyMask_32]

theorem parseCIDR_of_ip {w : Str} {ip : Nat} (h : parseIPv4 w = some ip) :
    parseCIDR w = none := by
  unfold parseCIDR
  rw [goIndex_first_notMem (parseIPv4_notMem_slash h)]

/-- Claim C4: a `/32` CIDR rule is equivalent to an exact-IP rule.  For a
string `w` that parses as an IPv4 address, the rule classified from
`w ++ "/32"` (a CIDR rule, since classification tries CIDR first) matches a
target exactly when the rule classified from `w` (a single-IP rule) does. -/
theorem C4_cidr32_exact_ip (w : Str) (ip : Nat) (e : Bool) (target : Str)
    (tIP : Option Nat) (hw : parseIPv4 w = some ip) :
    matchRule (mkRule (w ++ ['/', '3', '2']) e) target tIP =
      matchRule (mkRule w e) target tIP := by
  have h1 : mkRule (w ++ ['/', '3', '2']) e =
      ⟨w ++ ['/', '3', '2'], e, none, some ⟨ip, 32⟩⟩ := by
    unfold mkRule
    rw [parseCIDR_append_32 hw]
  have h2 : mkRule w e = ⟨w, e, some ip, none⟩ := by
    unfold mkRule
    rw [parseCIDR_of_ip hw, hw]
  rw [h1, h2]
  unfold matchRule
  cases tIP with
  | none => rfl
  | some tip =>
    show ipnetContains ⟨ip, 32⟩ tip = decide (ip = tip)
    unfold ipnetContains
    rw [applyMask_32]
    simp only [decide_eq_decide]
    exact eq_comm

/-- Witness for C4: the rule `10.0.0.1/32` and the rule `10.0.0.1` agree on
the target IP `10.0.0.1`. -/
theorem C4_witness :
    parseIPv4 ['1', '0', '.', '0', '.', '0', '.', '1'] = some 167772161 ∧
    matchRule (mkRule (['1', '0', '.', '0', '.', '0', '.', '1'] ++ ['/', '3', '2']) false)
        ['1', '0', '.', '0', '.', '0', '.', '1'] (some 167772161) =
      matchRule (mkRule ['1', '0', '.', '0', '.', '0', '.', '1'] false)
        ['1', '0', '.', '0', '.', '0', '.', '1'] (some 167772161) :=
  ⟨by decide, C4_cidr32_exact_ip _ 167772161 false _ (some 167772161) (by decide)⟩

/-! ## Pipeline claims (C5, C6) -/

/-- Claim C5: precondition gate.  When the domain fails `IsInScope`, or
fails `HasWildcard` (required because this workflow performs subdomain
enumeration), `Run` returns a `PreconditionError` and neither the producer
nor the consumer task is started: the counters stay zero and the FIFO
stays empty. -/
theorem C5_precondition_gate (s : Scope) (d : Str) (inp : RunInput)
    (h : IsInScope s d = false ∨ HasWildcard s d = false) :
    (∃ b, (activeRun s d inp).result = some (RunError.precondition b)) ∧
    (activeRun s d inp).producerStarted = false ∧
    (activeRun s d inp).consumerStarted = false ∧
    (activeRun s d inp).counters = ⟨0, 0, 0, []⟩ := by
  unfold activeRun
  rcases h with h | h
  · simp [h]
  · by_cases h1 : IsInScope s d = true
    · simp [h1, h]
    · have h2 : IsInScope s d = false := by
        cases hh : IsInScope s d
        · rfl
        · exact absurd hh h1
      simp [h2]

/-- Witness for C5: the spec scenario — scope `api.example.com` (no
wildcard), wildcard-requiring run on `api.example.com` aborts before any
task starts. -/
theorem C5_witness :
    HasWildcard demoScopeApi apiExampleCom = false ∧
    IsInScope demoScopeApi apiExampleCom = true ∧
    (∃ b, (activeRun demoScopeApi apiExampleCom ⟨[], none, none⟩).result =
      some (RunError.precondition b)) ∧
    (activeRun demoScopeApi apiExampleCom ⟨[], none, none⟩).producerStarted = false ∧
    (activeRun demoScopeApi apiExampleCom ⟨[], none, none⟩).consumerStarted = false := by
  refine ⟨by decide, by decide, ?_, ?_, ?_⟩
  · exact (C5_precondition_gate demoScopeApi apiExampleCom ⟨[], none, none⟩
      (Or.inr (by decide))).1
  · exact (C5_precondition_gate demoScopeApi apiExampleCom ⟨[], none, none⟩
      (Or.inr (by decide))).2.1
  · exact (C5_precondition_gate demoScopeApi apiExampleCom ⟨[], none, none⟩
      (Or.inr (by decide))).2.2.1

/-- Claim C6: completion and error postcondition.  After the gate passes
and both tasks complete, the producer's error wins, then the consumer's,
then a zero in-scope counter yields `ZeroResultError`, and otherwise the
run returns nil. -/
theorem C6_completion_errors (s : Scope) (d : Str) (inp : RunInput)
    (h1 : IsInScope s d = true) (h2 : HasWildcard s d = true) :
    (∀ e, inp.producerErr = some e →
      (activeRun s d inp).result = some (RunError.producer e)) ∧
    (inp.producerErr = none → ∀ e, inp.consumerErr = some e →
      (activeRun s d inp).result = some (RunError.consumer e)) ∧
    (inp.producerErr = none → inp.consumerErr = none →
      (runProducer s inp.hosts).inScope = 0 →
      (activeRun s d inp).result = some RunError.zeroResult) ∧
    (inp.producerErr = none → inp.consumerErr = none →
      (runProducer s inp.hosts).inScope ≠ 0 →
      (activeRun s d inp).result = none) := by
  unfold activeRun
  simp only [h1, h2, Bool.not_true, Bool.false_eq_true, if_false]
  refine ⟨?_, ?_, ?_, ?_⟩
  · intro e he
    rw [he]
  · intro hp e he
    rw [hp, he]
  · intro hp hc hz
    rw [hp, hc]
    simp [hz]
  · intro hp hc hz
    rw [hp, hc]
    simp [hz]

/-- Witness for C6: a gated run whose discovery stream is empty ends with
`ZeroResultError`. -/
theorem C6_witness :
    IsInScope demoScope exampleCom = true ∧
    HasWildcard demoScope exampleCom = true ∧
    (activeRun demoScope exampleCom ⟨[], none, none⟩).result =
      some RunError.zeroResult :=
  ⟨by decide, by decide,
    (C6_completion_errors demoScope exampleCom ⟨[], none, none⟩ (by decide)
      (by decide)).2.2.1 rfl rfl (by decide)⟩

/-! ## Dedup claim (C7) -/

theorem processAll_invariant (vs : List Str) :
    ∀ st : EmitState, st.emitted.Nodup → (∀ x ∈ st.emitted, x ∈ st.seen) →
      (processAll st vs).emitted.Nodup ∧
        (∀ x ∈ (processAll st vs).emitted, x ∈ (processAll st vs).seen) := by
  induction vs with
  | nil => exact fun st h1 h2 => ⟨h1, h2⟩
  | cons v t ih =>
    intro st h1 h2
    have hstep : processAll st (v :: t) = processAll ((emitUnique st v).1) t := rfl
    rw [hstep]
    by_cases hv : v ∈ st.seen
    · have hst : (emitUnique st v).1 = st := by simp [emitUnique, hv]
      rw [hst]
      exact ih st h1 h2
    · have hst : (emitUnique st v).1 = ⟨st.seen ++ [v], st.emitted ++ [v]⟩ := by
        simp [emitUnique, hv]
      rw [hst]
      apply ih
      · have hne : v ∉ st.emitted := fun hm => hv (h2 v hm)
        simp [List.nodup_append, h1, List.Disjoint]
        intro x hx he
        exact hne (he ▸ hx)
      · intro x hx
        rcases List.mem_append.mp hx with hx | hx
        · exact List.mem_append.mpr (Or.inl (h2 x hx))
        · exact List.mem_append.mpr (Or.inr hx)

theorem count_le_one_of_nodup {l : List Str} (h : l.Nodup) (v : Str) :
    l.count v ≤ 1 := by
  induction l with
  | nil => simp
  | cons a t ih =>
    rcases List.nodup_cons.mp h with ⟨hna, hnt⟩
    rw [List.count_cons]
    by_cases hva : v = a
    · subst hva
      have hz : t.count v = 0 := by
        rw [List.count_eq_zero]
        exact hna
      simp [hz]
    · have hb : (a == v) = false := by
        simp only [beq_eq_false_iff_ne, ne_eq]
        exact fun he => hva he.symm
      simp only [hb, Bool.false_eq_true, if_false, Nat.add_zero]
      exact ih hnt

/-- Claim C7: at-most-once emission.  `emitUnique` is one atomic
check-and-set on the per-run `seen` set; processing the discovered values
in any interleaved order emits every value at most once. -/
theorem C7_at_most_once (vs : List Str) (v : Str) :
    ((processAll ⟨[], []⟩ vs).emitted).count v ≤ 1 := by
  have h := processAll_invariant vs ⟨[], []⟩ (by simp) (by simp)
  exact count_le_one_of_nodup h.1 v

/-! ## Expansion eligibility (C8) -/

theorem expansionBases_fold (x : Str) (seeds : List Str) :
    ∀ acc : List Str,
      (x ∈ seeds.foldl
        (fun acc h =>
          if 2 ≤ goCountChar h '.' && !acc.contains h then acc ++ [h] else acc)
        acc) ↔
      (x ∈ acc ∨ (x ∈ seeds ∧ 2 ≤ goCountChar x '.')) := by
  induction seeds with
  | nil => intro acc; simp
  | cons s t ih =>
    intro acc
    show (x ∈ t.foldl _
      (if 2 ≤ goCountChar s '.' && !acc.contains s then acc ++ [s] else acc)) ↔ _
    by_cases h1 : 2 ≤ goCountChar s '.'
    · by_cases h2 : acc.contains s = true
      · have hmem : s ∈ acc := by simpa using h2
        have hcond : (decide (2 ≤ goCountChar s '.') && !acc.contains s) = false := by
          rw [h2]
          simp only [Bool.not_true, Bool.and_false]
        rw [if_neg (by rw [hcond]; exact Bool.false_ne_true)]
        rw [ih acc]
        constructor
        · rintro (hx | ⟨hxt, hc⟩)
          · exact Or.inl hx
          · exact Or.inr ⟨List.mem_cons_of_mem _ hxt, hc⟩
        · rintro (hx | ⟨hxt, hc⟩)
          · exact Or.inl hx
          · rcases List.mem_cons.mp hxt with rfl | hxt
            · exact Or.inl hmem
            · exact Or.inr ⟨hxt, hc⟩
      · have h2f : acc.contains s = false := by
          cases hcs : acc.contains s
          · rfl
          · exact absurd hcs h2
        have hcond : (decide (2 ≤ goCountChar s '.') && !acc.contains s) = true := by
          rw [h2f]
          simp only [Bool.not_false, Bool.and_true]
          exact decide_eq_true h1
        rw [if_pos hcond]
        rw [ih (acc ++ [s])]
        constructor
        · rintro (hx | ⟨hxt, hc⟩)
          · rcases List.mem_append.mp hx with hx | hx
            · exact Or.inl hx
            · have hxs : x = s := by simpa using hx
              exact Or.inr ⟨by simp [hxs], hxs ▸ h1⟩
          · exact Or.inr ⟨List.mem_cons_of_mem _ hxt, hc⟩
        · rintro (hx | ⟨hxt, hc⟩)
          · exact Or.inl (List.mem_append.mpr (Or.inl hx))
          · rcases List.mem_cons.mp hxt with rfl | hxt
            · exact Or.inl (List.mem_append.mpr (Or.inr (by simp)))
            · exact Or.inr ⟨hxt, hc⟩
    · have hcond : (decide (2 ≤ goCountChar s '.') && !acc.contains s) = false := by
        rw [decide_eq_false h1]
        simp only [Bool.false_and]
      rw [if_neg (by rw [hcond]; exact Bool.false_ne_true)]
      rw [ih acc]
      constructor
      · rintro (hx | ⟨hxt, hc⟩)
        · exact Or.inl hx
        · exact Or.inr ⟨List.mem_cons_of_mem _ hxt, hc⟩
      · rintro (hx | ⟨hxt, hc⟩)
        · exact Or.inl hx
        · rcases List.mem_cons.mp hxt with rfl | hxt
          · exact absurd hc h1
          · exact Or.inr ⟨hxt, hc⟩

/-- Counterexample to claim C8 as stated: with root domain `example.com`,
the direct child `api.example.com` — the simplest possible subdomain form,
with exactly one label more than the root, hence no more depth than a
direct child — nevertheless becomes an expansion seed. -/
theorem C8_counterexample :
    apiExampleCom ∈ expansionBases [apiExampleCom] ∧
    ¬(goCountChar exampleCom '.' + 2 ≤ goCountChar apiExampleCom '.') := by
  constructor
  · decide
  · decide

/-- Claim C8 (amended): a freshly discovered value becomes an expansion
seed exactly when it contains at least two dots (at least three labels),
independent of the root; in particular every subdomain of a two-label
root — including a direct child — is re-seeded, and only values with
fewer than three labels are not. -/
theorem C8_amended_eligibility (seeds : List Str) (x : Str) :
    x ∈ expansionBases seeds ↔ (x ∈ seeds ∧ 2 ≤ goCountChar x '.') := by
  unfold expansionBases
  rw [expansionBases_fold x seeds []]
  simp

/-! ## Append-only output (C9) -/

theorem writeLines_eq (f l : List Str) : writeLines f l = f ++ l := by
  induction l generalizing f with
  | nil => simp [writeLines]
  | cons a t ih =>
    show writeLines (f ++ [a]) t = f ++ a :: t
    rw [ih]
    simp

/-- Claim C9: append-only output.  A destination is opened in append mode
(never truncated), so a second run's file is the first run's file with the
second run's lines appended; when the second run emits anything the file
strictly grows. -/
theorem C9_append_only (f0 : Option (List Str)) (l1 l2 : List Str) :
    runOutput (some (runOutput f0 l1)) l2 = (openAppend f0 ++ l1) ++ l2 ∧
    runOutput f0 l1 <+: runOutput (some (runOutput f0 l1)) l2 ∧
    (l2 ≠ [] →
      (runOutput f0 l1).length < (runOutput (some (runOutput f0 l1)) l2).length) := by
  have h1 : runOutput f0 l1 = openAppend f0 ++ l1 := writeLines_eq _ _
  have h2 : runOutput (some (runOutput f0 l1)) l2 = (openAppend f0 ++ l1) ++ l2 := by
    show writeLines (openAppend (some (runOutput f0 l1))) l2 = _
    rw [writeLines_eq]
    show runOutput f0 l1 ++ l2 = _
    rw [h1]
  refine ⟨h2, ?_, ?_⟩
  · rw [h2, h1]
    exact List.prefix_append _ _
  · intro hne
    rw [h2, h1]
    have : 0 < l2.length := List.length_pos.mpr hne
    simp only [List.length_append]
    omega

/-- Witness for C9: two runs writing one line each against an initially
missing file yield both lines in order, and the second run grows the
file. -/
theorem C9_witness :
    runOutput (some (runOutput none [['a']])) [['b']] = [['a'], ['b']] ∧
    (runOutput none [['a']]).length <
      (runOutput (some (runOutput none [['a']])) [['b']]).length := by
  constructor
  · have := (C9_append_only none [['a']] [['b']]).1
    simpa using this
  · exact (C9_append_only none [['a']] [['b']]).2.2 (by decide)

/-! ## HasWildcard rawness (C10) -/

/-- Claim C10: `HasWildcard` depends only on the wildcard inclusion rules
and the lowercased, whitespace-trimmed raw target — it never consults
exclusion rules and applies none of `IsInScope`'s scheme/port/path/bracket
normalization.  Consequently, for the scope `*.example.com`,
`HasWildcard "https://example.com"` is `false` although
`IsInScope "https://example.com"` is `true`; and the excluded target
`admin.example.com` still satisfies `HasWildcard`. -/
theorem C10_haswildcard_raw :
    (∀ (inc ex ex' : List Rule) (t : Str),
      HasWildcard ⟨inc, ex⟩ t = HasWildcard ⟨inc, ex'⟩ t) ∧
    (∀ (s : Scope) (t u : Str),
      goToLower (goTrimSpace t) = goToLower (goTrimSpace u) →
      HasWildcard s t = HasWildcard s u) ∧
    (∀ (s : Scope) (t : Str), HasWildcard s t =
      HasWildcard
        ⟨s.includes.filter (fun r => ['*', '.'].isPrefixOf r.pattern),
          s.excludes⟩ t) ∧
    (HasWildcard demoScope httpsExampleCom = false ∧
      IsInScope demoScope httpsExampleCom = true) ∧
    (HasWildcard demoScope2 adminExampleCom = true ∧
      IsInScope demoScope2 adminExampleCom = false) := by
  refine ⟨?_, ?_, ?_, by constructor <;> decide, by constructor <;> decide⟩
  · intro inc ex ex' t
    rfl
  · intro s t u h
    unfold HasWildcard
    rw [h]
  · intro s t
    unfold HasWildcard
    show s.includes.any _ = (s.includes.filter _).any _
    rw [List.any_filter]
    congr 1
    funext r
    cases hp : (['*', '.'].isPrefixOf r.pattern) <;> simp [hp]

/-- Witness for C10: `HasWildcard` sees ` Example.CoM ` and `example.com`
as the same target. -/
theorem C10_witness :
    HasWildcard demoScope
        [' ', 'E', 'x', 'a', 'm', 'p', 'l', 'e', '.', 'C', 'o', 'M', ' '] =
      HasWildcard demoScope exampleCom :=
  C10_haswildcard_raw.2.1 demoScope _ _ (by decide)

end Narmol
